import Mathlib

/-! Verification of the UDP reliability layer (`core::UdpConnection`).

Shallow embedding of `src/core/udp_connection.cpp` and `src/core/packet.h`.

Conventions of the embedding:
* `uint16_t` and `uint32_t` values are natural numbers; a well-formed value is
  below `65536` (respectively `2 ^ 32`).  Wrapping arithmetic is written with
  an explicit `% 65536`.
* `std::list` is `List`; the front of the list is the head.
* The socket and the dispatcher are external: `send` returns the new
  connection state (the transmitted frame is the new head of `m_sent`), and
  `dispatchReceivedPackets` returns the frames handed to the dispatcher, in
  call order.
* Loops that the source does not bound are given a fuel argument and return
  `none` when the fuel runs out.
-/

namespace core

/-! ## Data model -/

/-- The header record `PacketHeader` of `packet.h`. -/
structure PacketHeader where
  protocol : Nat
  seqNum : Nat
  ack : Nat
  ackBits : Nat
deriving DecidableEq

/-- Modelled from the spec: `UdpPacketHeader` is declared in a header that is
not among the sources; the connection reads and writes its `seqNum`, `ack`
and `ackBits` fields, and the spec gives it the same four fields as
`PacketHeader`. -/
abbrev UdpPacketHeader := PacketHeader

/-- Modelled from the spec: `UdpPacketBase` is declared in a header that is
not among the sources.  The spec describes a frame as header bytes followed by
payload bytes; the connection only touches the header through
`packet.header()`, so a frame is a header record and the payload bytes. -/
structure UdpPacketBase where
  header : UdpPacketHeader
  payload : List Nat
deriving DecidableEq

/-- An element of `m_sent`: `std::pair<UdpPacketBase, bool>`, the frame and
its `reliable` flag. -/
abbrev SentEntry := UdpPacketBase × Bool

/-- The data members of `UdpConnection` (socket and peer endpoint left out). -/
structure UdpConnection where
  m_seqNum : Nat
  m_ack : Nat
  m_ackBits : Nat
  m_sent : List SentEntry
  m_received : List UdpPacketBase
deriving DecidableEq

/-- The constructor `UdpConnection::UdpConnection`: all counters zero, both
lists empty. -/
def UdpConnection.new : UdpConnection :=
  { m_seqNum := 0, m_ack := 0, m_ackBits := 0, m_sent := [], m_received := [] }

/-- Subtraction of two `uint16_t` values stored into a `uint16_t`
(`uint16_t delta = a - b;`), for operands below `65536`. -/
def sub16 (a b : Nat) : Nat := (a + 65536 - b) % 65536

/-! ## Sequence arithmetic -/

/-- Modelled from the spec: `more_recent` is called by `udp_connection.cpp`
but defined in a header that is not among the sources.  The spec (4.2) defines
it: `a` is more recent than `b` iff (`a > b` and `a - b <= 32768`) or
(`b > a` and `b - a > 32768`). -/
def more_recent (a b : Nat) : Bool :=
  (decide (a > b) && decide (a - b ≤ 32768)) || (decide (b > a) && decide (b - a > 32768))

/-- Modelled from the spec: the overload `more_recent(packet, packet)` used by
`handleReceive` is not among the sources; the spec orders frames by their
sequence numbers. -/
def more_recent_packet (p q : UdpPacketBase) : Bool :=
  more_recent p.header.seqNum q.header.seqNum

/-! ## Sending -/

/-- `UdpConnection::send`: stamp the header with `m_seqNum++`, `m_ack`,
`m_ackBits`, hand the buffer to the socket, push the pair to the front of
`m_sent`. -/
def send (c : UdpConnection) (packet : UdpPacketBase) (reliable : Bool) : UdpConnection :=
  let header : UdpPacketHeader :=
    { packet.header with seqNum := c.m_seqNum, ack := c.m_ack, ackBits := c.m_ackBits }
  { c with
    m_seqNum := (c.m_seqNum + 1) % 65536
    m_sent := ({ packet with header := header }, reliable) :: c.m_sent }

/-- `UdpConnection::handleSend`: on error, `remove_if` every entry of `m_sent`
whose sequence number is `seqNum`; on success nothing. -/
def handleSend (c : UdpConnection) (seqNum : Nat) (error : Bool) : UdpConnection :=
  if error then
    { c with m_sent := c.m_sent.filter (fun p => !decide (p.1.header.seqNum = seqNum)) }
  else c

/-! ## Receive-ack tracker -/

/-- `UdpConnection::adjustMyAck`. -/
def adjustMyAck (c : UdpConnection) (seqNum : Nat) : UdpConnection :=
  if more_recent seqNum c.m_ack then
    let delta := sub16 seqNum c.m_ack
    { c with
      m_ackBits := if delta < 32 then c.m_ackBits >>> delta else 0
      m_ack := seqNum }
  else
    let delta := sub16 c.m_ack seqNum
    if delta < 32 then
      { c with m_ackBits := (c.m_ackBits ||| (1 <<< delta)) % 2 ^ 32 }
    else c

/-! ## Sent-packet ledger

While `processPeerAcks` walks `m_sent` with the iterator `it`, the list is
represented in two parts: `c.m_sent` holds the elements in front of `it`
(where `push_front` adds) and a separate list holds the elements from `it` to
the end.  The real list is `c.m_sent ++ it`. -/

/-- The inner loop of `processPeerAcks` (lines 103-114): from `it` to the end,
re-send the frame when the entry is reliable, then erase the entry. -/
def resendTail (c : UdpConnection) : List SentEntry → UdpConnection
  | [] => c
  | e :: t => resendTail (if e.2 then send c e.1 true else c) t

/-- Outcome of one iteration of the outer loop of `processPeerAcks`. -/
inductive ScanStep where
  /-- The loop was left through `break`; the list is `m_sent` of the state. -/
  | finished (c : UdpConnection)
  /-- The loop goes on with the iterator at the head of `it`. -/
  | continuing (c : UdpConnection) (it : List SentEntry)
deriving DecidableEq

/-- One iteration of the outer loop of `processPeerAcks` (lines 91-134) with
the iterator at `e`, followed by `t`. -/
def processPeerAcksIter (peerAck peerAckBits : Nat) (c : UdpConnection)
    (e : SentEntry) (t : List SentEntry) : ScanStep :=
  let seqNum := e.1.header.seqNum
  if more_recent seqNum peerAck then
    -- too young to receive ack: `++it; continue;`
    .continuing { c with m_sent := c.m_sent ++ [e] } t
  else
    let delta := sub16 c.m_ack seqNum
    if delta ≥ 32 then
      -- too old to receive ack: sweep to the end, then `break`
      .finished (resendTail c (e :: t))
    else if delta = 0 then
      -- `it = m_sent.erase(it);`
      .continuing c t
    else
      let bit := (1 <<< (delta - 1)) % 2 ^ 32
      if peerAckBits &&& bit = bit then
        -- `it = m_sent.erase(it);`
        .continuing c t
      else
        -- no statement: the iterator stays where it is
        .continuing c (e :: t)

/-- The outer loop of `processPeerAcks` (line 89), run for at most `fuel`
iterations; `none` when the loop has not ended by then. -/
def processPeerAcksFrom (peerAck peerAckBits : Nat) :
    Nat → UdpConnection → List SentEntry → Option UdpConnection
  | _, c, [] => some c
  | 0, _, _ :: _ => none
  | fuel + 1, c, e :: t =>
    match processPeerAcksIter peerAck peerAckBits c e t with
    | .finished c1 => some c1
    | .continuing c1 it1 => processPeerAcksFrom peerAck peerAckBits fuel c1 it1

/-- `UdpConnection::processPeerAcks`: the iterator starts at `m_sent.begin()`,
nothing is in front of it. -/
def processPeerAcks (fuel : Nat) (c : UdpConnection) (peerAck peerAckBits : Nat) :
    Option UdpConnection :=
  processPeerAcksFrom peerAck peerAckBits fuel { c with m_sent := [] } c.m_sent

/-- `UdpConnection::processHeader`. -/
def processHeader (fuel : Nat) (c : UdpConnection) (header : UdpPacketHeader) :
    Option UdpConnection :=
  processPeerAcks fuel (adjustMyAck c header.seqNum) header.ack header.ackBits

/-! ## Receive reordering and dispatch -/

/-- The scan and `insert` of `handleReceive` (lines 49-56): insert `packet`
in front of the first element it is more recent than, at the end if none. -/
def insertReceived (packet : UdpPacketBase) : List UdpPacketBase → List UdpPacketBase
  | [] => [packet]
  | e :: t =>
    if more_recent_packet packet e then packet :: e :: t
    else e :: insertReceived packet t

/-- `UdpConnection::handleReceive`. -/
def handleReceive (fuel : Nat) (c : UdpConnection) (packet : UdpPacketBase) :
    Option UdpConnection :=
  match processHeader fuel c packet.header with
  | none => none
  | some c1 => some { c1 with m_received := insertReceived packet c1.m_received }

/-- `UdpConnection::dispatchReceivedPackets`: the frames passed to
`dispatcher.dispatchPacket`, in call order, and the state after `clear()`. -/
def dispatchReceivedPackets (c : UdpConnection) : List UdpPacketBase × UdpConnection :=
  (c.m_received.reverse, { c with m_received := [] })

/-- Frames received one after the other through `handleReceive`, each call
with the same fuel. -/
def receiveAll (fuel : Nat) : UdpConnection → List UdpPacketBase → Option UdpConnection
  | c, [] => some c
  | c, p :: ps =>
    match handleReceive fuel c p with
    | none => none
    | some c1 => receiveAll fuel c1 ps

/-- Sequence numbers fed one after the other through `adjustMyAck`. -/
def adjustAll (c : UdpConnection) (seqNums : List Nat) : UdpConnection :=
  seqNums.foldl adjustMyAck c

/-! ## Wire frame (`packet.h`)

The buffer `m_buffer` is a list of bytes.  The header is the view
`reinterpret_cast<PacketHeader*>(m_buffer.data())`: three `uint16_t` at offsets
0, 2 and 4, two bytes of padding, one `uint32_t` at offset 8 (natural
alignment), every field little-endian. -/

/-- `cMaxUdpPacketSize`. -/
def cMaxUdpPacketSize : Nat := 512

/-- `sizeof(PacketHeader)` under natural alignment. -/
def headerSize : Nat := 12

/-- The failure of `Packet(uint8_t*, size_t)`:
`std::runtime_error("Packet: input data size is too small")`. -/
inductive PacketError where
  | malformedFrame
deriving DecidableEq

/-- The class `Packet`: its only data member is `m_buffer`. -/
structure Packet where
  m_buffer : List Nat
deriving DecidableEq

/-- Read of a `uint16_t` at byte offset `off`. -/
def read16 (buf : List Nat) (off : Nat) : Nat :=
  buf.getD off 0 + 256 * buf.getD (off + 1) 0

/-- Read of a `uint32_t` at byte offset `off`. -/
def read32 (buf : List Nat) (off : Nat) : Nat :=
  buf.getD off 0 + 256 * buf.getD (off + 1) 0 + 65536 * buf.getD (off + 2) 0
    + 16777216 * buf.getD (off + 3) 0

/-- Store of a `uint16_t` at byte offset `off`. -/
def write16 (buf : List Nat) (off v : Nat) : List Nat :=
  (buf.set off (v % 256)).set (off + 1) (v / 256 % 256)

/-- Store of a `uint32_t` at byte offset `off`. -/
def write32 (buf : List Nat) (off v : Nat) : List Nat :=
  (((buf.set off (v % 256)).set (off + 1) (v / 256 % 256)).set (off + 2)
    (v / 65536 % 256)).set (off + 3) (v / 16777216 % 256)

/-- `Packet::header() const`: the header fields read through the view. -/
def Packet.header (p : Packet) : PacketHeader :=
  { protocol := read16 p.m_buffer 0, seqNum := read16 p.m_buffer 2,
    ack := read16 p.m_buffer 4, ackBits := read32 p.m_buffer 8 }

/-- The bytes of the buffer behind the header. -/
def Packet.payload (p : Packet) : List Nat := p.m_buffer.drop headerSize

/-- `Packet(uint16_t protocol)`, the spec's `newOutgoing`: `resize` to the
header size (zero bytes), then `header().protocol = protocol`. -/
def Packet.newOutgoing (protocol : Nat) : Packet :=
  { m_buffer := write16 (List.replicate headerSize 0) 0 protocol }

/-- `Packet(uint8_t* data, size_t len)`, the spec's `parseIncoming`, with
`data` the `len` bytes: throw when `len < sizeof(PacketHeader)`, else
`m_buffer.assign(data, data + len)`. -/
def Packet.parseIncoming (data : List Nat) : Except PacketError Packet :=
  if data.length < headerSize then .error .malformedFrame
  else .ok { m_buffer := data }

/-- Payload bytes appended by the caller through the mutable `buffer()`. -/
def Packet.appendPayload (p : Packet) (bytes : List Nat) : Packet :=
  { m_buffer := p.m_buffer ++ bytes }

/-- The three header stores of `send` (lines 16-18) through the mutable
`header()` view: `seqNum`, `ack`, `ackBits`. -/
def Packet.stamp (p : Packet) (seqNum ack ackBits : Nat) : Packet :=
  { m_buffer := write32 (write16 (write16 p.m_buffer 2 seqNum) 4 ack) 8 ackBits }

/-! ## Runs of operations -/

/-- The operations on a connection: `send(packet, reliable)`,
`handleReceive(packet)`, `handleSend(seqNum, error)`. -/
inductive Op where
  | send (packet : UdpPacketBase) (reliable : Bool)
  | handleReceive (packet : UdpPacketBase)
  | handleSend (seqNum : Nat) (error : Bool)
deriving DecidableEq

/-- One operation applied to the connection. -/
def applyOp (fuel : Nat) (c : UdpConnection) : Op → Option UdpConnection
  | .send packet reliable => some (send c packet reliable)
  | .handleReceive packet => handleReceive fuel c packet
  | .handleSend seqNum error => some (handleSend c seqNum error)

/-- Number of calls of `send` made by the inner loop `resendTail`: one per
reliable entry. -/
def resendCount (l : List SentEntry) : Nat := (l.filter (fun e => e.2)).length

/-- Number of calls of `send` made by the loop of `processPeerAcks`: the outer
loop calls `send` only through the sweep. -/
def scanSendCount (peerAck peerAckBits : Nat) :
    Nat → UdpConnection → List SentEntry → Nat
  | _, _, [] => 0
  | 0, _, _ :: _ => 0
  | fuel + 1, c, e :: t =>
    match processPeerAcksIter peerAck peerAckBits c e t with
    | .finished _ => resendCount (e :: t)
    | .continuing c1 it1 => scanSendCount peerAck peerAckBits fuel c1 it1

/-- Number of frames handed to the socket by one operation, retransmissions
included. -/
def opSendCount (fuel : Nat) (c : UdpConnection) : Op → Nat
  | .send _ _ => 1
  | .handleReceive packet =>
    scanSendCount packet.header.ack packet.header.ackBits fuel
      { adjustMyAck c packet.header.seqNum with m_sent := [] }
      (adjustMyAck c packet.header.seqNum).m_sent
  | .handleSend _ _ => 0

/-- A run of operations from a state; the second component counts the frames
sent so far. -/
def runOps (fuel : Nat) : UdpConnection × Nat → List Op → Option (UdpConnection × Nat)
  | s, [] => some s
  | s, op :: ops =>
    match applyOp fuel s.1 op with
    | none => none
    | some c1 => runOps fuel (c1, s.2 + opSendCount fuel s.1 op) ops

/-- A frame with the given sequence number and reliability, used in examples. -/
def mkEntry (seqNum : Nat) (reliable : Bool) : SentEntry :=
  ({ header := { protocol := 7, seqNum := seqNum, ack := 0, ackBits := 0 },
     payload := [seqNum] }, reliable)

end core

/-! # Theorems -/

namespace core

/-! ## Helper lemmas -/

theorem processPeerAcksFrom_stuck (peerAck peerAckBits : Nat) (c : UdpConnection)
    (e : SentEntry) (t : List SentEntry)
    (h : processPeerAcksIter peerAck peerAckBits c e t = .continuing c (e :: t)) :
    ∀ fuel, processPeerAcksFrom peerAck peerAckBits fuel c (e :: t) = none := by
  intro fuel
  induction fuel with
  | zero => rfl
  | succ n ih => simp only [processPeerAcksFrom, h, ih]

theorem processPeerAcksIter_pending (peerAck peerAckBits : Nat) (c : UdpConnection)
    (e : SentEntry) (t : List SentEntry)
    (hold : more_recent e.1.header.seqNum peerAck = false)
    (hlo : 1 ≤ sub16 c.m_ack e.1.header.seqNum) (hhi : sub16 c.m_ack e.1.header.seqNum ≤ 31)
    (hbit : peerAckBits &&& ((1 <<< (sub16 c.m_ack e.1.header.seqNum - 1)) % 2 ^ 32)
      ≠ (1 <<< (sub16 c.m_ack e.1.header.seqNum - 1)) % 2 ^ 32) :
    processPeerAcksIter peerAck peerAckBits c e t = .continuing c (e :: t) := by
  have h1 : ¬ sub16 c.m_ack e.1.header.seqNum ≥ 32 := by omega
  have h2 : ¬ sub16 c.m_ack e.1.header.seqNum = 0 := by omega
  simp only [processPeerAcksIter, hold, h1, h2, hbit, if_false, Bool.false_eq_true]

theorem resendTail_ack (c : UdpConnection) (l : List SentEntry) :
    (resendTail c l).m_ack = c.m_ack ∧ (resendTail c l).m_ackBits = c.m_ackBits
      ∧ (resendTail c l).m_received = c.m_received := by
  induction l generalizing c with
  | nil => simp [resendTail]
  | cons e t ih =>
    obtain ⟨p, r⟩ := e
    cases r <;> simp [resendTail, ih, send]

theorem resendTail_seqNum (c : UdpConnection) (l : List SentEntry) :
    (resendTail c l).m_seqNum % 65536 = (c.m_seqNum + (l.filter (fun e => e.2)).length) % 65536 := by
  induction l generalizing c with
  | nil => simp [resendTail]
  | cons e t ih =>
    obtain ⟨p, r⟩ := e
    cases r
    · simp [resendTail, ih]
    · simp only [resendTail, if_true, ih, send, List.filter_cons_of_pos, List.length_cons]
      omega

theorem resendTail_sent (c : UdpConnection) (l : List SentEntry) :
    ∃ fresh : List SentEntry, (resendTail c l).m_sent = fresh ++ c.m_sent
      ∧ fresh.length = (l.filter (fun e => e.2)).length := by
  induction l generalizing c with
  | nil => exact ⟨[], by simp [resendTail]⟩
  | cons e t ih =>
    obtain ⟨p, r⟩ := e
    cases r
    · simpa [resendTail] using ih c
    · obtain ⟨fresh, h1, h2⟩ := ih (send c p true)
      refine ⟨fresh ++ [({ p with header := { p.header with
        seqNum := c.m_seqNum, ack := c.m_ack, ackBits := c.m_ackBits } }, true)], ?_, ?_⟩
      · simp only [resendTail, if_true]
        rw [h1]
        simp [send]
      · simp [h2]

theorem adjustMyAck_received (c : UdpConnection) (s : Nat) :
    (adjustMyAck c s).m_received = c.m_received := by
  unfold adjustMyAck
  split
  · rfl
  · simp only
    split <;> rfl

theorem adjustMyAck_sent (c : UdpConnection) (s : Nat) :
    (adjustMyAck c s).m_sent = c.m_sent := by
  unfold adjustMyAck
  split
  · rfl
  · simp only
    split <;> rfl

theorem processPeerAcksIter_received (peerAck peerAckBits : Nat) (c : UdpConnection)
    (e : SentEntry) (t : List SentEntry) :
    (∀ c1, processPeerAcksIter peerAck peerAckBits c e t = .finished c1 →
        c1.m_received = c.m_received)
      ∧ (∀ c1 it1, processPeerAcksIter peerAck peerAckBits c e t = .continuing c1 it1 →
        c1.m_received = c.m_received) := by
  unfold processPeerAcksIter
  simp only
  split
  · constructor
    · intro c1 h; cases h
    · intro c1 it1 h; cases h; rfl
  · split
    · constructor
      · intro c1 h; cases h; exact (resendTail_ack _ _).2.2
      · intro c1 it1 h; cases h
    · split
      · constructor
        · intro c1 h; cases h
        · intro c1 it1 h; cases h; rfl
      · split
        · constructor
          · intro c1 h; cases h
          · intro c1 it1 h; cases h; rfl
        · constructor
          · intro c1 h; cases h
          · intro c1 it1 h; cases h; rfl

theorem processPeerAcksFrom_received (peerAck peerAckBits : Nat) :
    ∀ (fuel : Nat) (c : UdpConnection) (it : List SentEntry) (c1 : UdpConnection),
      processPeerAcksFrom peerAck peerAckBits fuel c it = some c1 →
      c1.m_received = c.m_received := by
  intro fuel
  induction fuel with
  | zero =>
    intro c it c1 h
    cases it with
    | nil => simp only [processPeerAcksFrom, Option.some.injEq] at h; rw [← h]
    | cons e t => simp [processPeerAcksFrom] at h
  | succ n ih =>
    intro c it c1 h
    cases it with
    | nil => simp only [processPeerAcksFrom, Option.some.injEq] at h; rw [← h]
    | cons e t =>
      simp only [processPeerAcksFrom] at h
      have hit := processPeerAcksIter_received peerAck peerAckBits c e t
      cases hstep : processPeerAcksIter peerAck peerAckBits c e t with
      | finished c2 =>
        rw [hstep] at h
        simp only [Option.some.injEq] at h
        rw [← h]
        exact hit.1 c2 hstep
      | continuing c2 it2 =>
        rw [hstep] at h
        simp only at h
        rw [ih c2 it2 c1 h]
        exact hit.2 c2 it2 hstep

theorem handleReceive_received (fuel : Nat) (c c1 : UdpConnection) (p : UdpPacketBase)
    (h : handleReceive fuel c p = some c1) :
    c1.m_received = insertReceived p c.m_received := by
  unfold handleReceive at h
  cases hp : processHeader fuel c p.header with
  | none => rw [hp] at h; cases h
  | some c2 =>
    rw [hp] at h
    simp only [Option.some.injEq] at h
    unfold processHeader processPeerAcks at hp
    have h2 := processPeerAcksFrom_received _ _ _ _ _ _ hp
    simp only at h2
    rw [← h]
    simp only [h2, adjustMyAck_received]

theorem receiveAll_received (fuel : Nat) (pkts : List UdpPacketBase) :
    ∀ (c c1 : UdpConnection), receiveAll fuel c pkts = some c1 →
      c1.m_received = pkts.foldl (fun buf p => insertReceived p buf) c.m_received := by
  induction pkts with
  | nil =>
    intro c c1 h
    simp only [receiveAll, Option.some.injEq] at h
    simp [h]
  | cons p ps ih =>
    intro c c1 h
    simp only [receiveAll] at h
    cases hp : handleReceive fuel c p with
    | none => rw [hp] at h; cases h
    | some c2 =>
      rw [hp] at h
      simp only at h
      rw [ih c2 c1 h, handleReceive_received fuel c c2 p hp]
      rfl

theorem mem_insertReceived (p x : UdpPacketBase) (l : List UdpPacketBase) :
    x ∈ insertReceived p l ↔ x = p ∨ x ∈ l := by
  induction l with
  | nil => simp [insertReceived]
  | cons e t ih =>
    unfold insertReceived
    split
    · simp
    · simp only [List.mem_cons, ih]
      tauto

theorem insertReceived_perm (p : UdpPacketBase) (l : List UdpPacketBase) :
    (insertReceived p l).Perm (p :: l) := by
  induction l with
  | nil => simp [insertReceived]
  | cons e t ih =>
    unfold insertReceived
    split
    · exact List.Perm.refl _
    · exact (List.Perm.cons e ih).trans (List.Perm.swap p e t)

theorem foldl_insertReceived_perm (pkts : List UdpPacketBase) :
    ∀ buf : List UdpPacketBase,
      (pkts.foldl (fun buf p => insertReceived p buf) buf).Perm (pkts ++ buf) := by
  induction pkts with
  | nil => intro buf; exact List.Perm.refl _
  | cons p ps ih =>
    intro buf
    simp only [List.foldl_cons, List.cons_append]
    refine (ih _).trans ?_
    refine (List.Perm.append_left ps (insertReceived_perm p buf)).trans ?_
    exact List.perm_middle

/-- Within one arc of fewer than 32768 consecutive sequence numbers starting at
`base`, `more_recent` compares the offsets from `base`. -/
theorem more_recent_iff_offset (base a b : Nat) (hbase : base < 65536)
    (ha : a < 65536) (hb : b < 65536)
    (hoa : sub16 a base < 32767) (hob : sub16 b base < 32767) :
    more_recent a b = true ↔ sub16 b base < sub16 a base := by
  simp only [more_recent, Bool.or_eq_true, Bool.and_eq_true, decide_eq_true_eq, sub16] at *
  omega

theorem insertReceived_sorted (base : Nat) (hbase : base < 65536) (p : UdpPacketBase)
    (hp : p.header.seqNum < 65536 ∧ sub16 p.header.seqNum base < 32767)
    (l : List UdpPacketBase)
    (hl : ∀ x ∈ l, x.header.seqNum < 65536 ∧ sub16 x.header.seqNum base < 32767)
    (hs : l.Pairwise (fun x y => sub16 y.header.seqNum base ≤ sub16 x.header.seqNum base)) :
    (insertReceived p l).Pairwise
      (fun x y => sub16 y.header.seqNum base ≤ sub16 x.header.seqNum base) := by
  induction l with
  | nil => simp [insertReceived]
  | cons e t ih =>
    have he := hl e (List.mem_cons_self e t)
    have ht : ∀ x ∈ t, x.header.seqNum < 65536 ∧ sub16 x.header.seqNum base < 32767 :=
      fun x hx => hl x (List.mem_cons_of_mem e hx)
    rw [List.pairwise_cons] at hs
    unfold insertReceived
    split
    · rename_i hrec
      have hlt := (more_recent_iff_offset base _ _ hbase hp.1 he.1 hp.2 he.2).1 hrec
      refine List.Pairwise.cons ?_ (List.Pairwise.cons hs.1 hs.2)
      intro x hx
      rcases List.mem_cons.1 hx with rfl | hx
      · omega
      · have := hs.1 x hx
        omega
    · rename_i hrec
      have hge : ¬ sub16 e.header.seqNum base < sub16 p.header.seqNum base := fun h =>
        hrec ((more_recent_iff_offset base _ _ hbase hp.1 he.1 hp.2 he.2).2 h)
      refine List.Pairwise.cons ?_ (ih ht hs.2)
      intro x hx
      rcases (mem_insertReceived p x t).1 hx with rfl | hx
      · omega
      · exact hs.1 x hx

theorem foldl_insertReceived_sorted (base : Nat) (hbase : base < 65536)
    (pkts : List UdpPacketBase)
    (hpk : ∀ x ∈ pkts, x.header.seqNum < 65536 ∧ sub16 x.header.seqNum base < 32767) :
    ∀ buf : List UdpPacketBase,
      (∀ x ∈ buf, x.header.seqNum < 65536 ∧ sub16 x.header.seqNum base < 32767) →
      buf.Pairwise (fun x y => sub16 y.header.seqNum base ≤ sub16 x.header.seqNum base) →
      (pkts.foldl (fun buf p => insertReceived p buf) buf).Pairwise
        (fun x y => sub16 y.header.seqNum base ≤ sub16 x.header.seqNum base) := by
  induction pkts with
  | nil => intro buf _ hs; exact hs
  | cons p ps ih =>
    intro buf hb hs
    have hp := hpk p (List.mem_cons_self p ps)
    simp only [List.foldl_cons]
    apply ih (fun x hx => hpk x (List.mem_cons_of_mem p hx))
    · intro x hx
      rcases (mem_insertReceived p x buf).1 hx with rfl | hx
      · exact hp
      · exact hb x hx
    · exact insertReceived_sorted base hbase p hp buf hb hs

theorem receiveAll_total_of_nothing_sent (fuel : Nat) (pkts : List UdpPacketBase) :
    ∀ c : UdpConnection, c.m_sent = [] → ∃ c1, receiveAll fuel c pkts = some c1 := by
  induction pkts with
  | nil => intro c _; exact ⟨c, rfl⟩
  | cons p ps ih =>
    intro c hc
    have h : handleReceive fuel c p
        = some { adjustMyAck c p.header.seqNum with
                 m_sent := []
                 m_received := insertReceived p (adjustMyAck c p.header.seqNum).m_received } := by
      simp only [handleReceive, processHeader, processPeerAcks, adjustMyAck_sent, hc]
      cases fuel <;> rfl
    simp only [receiveAll, h]
    exact ih _ rfl

/-! ## Sent-packet ledger: termination, retirement, expiry -/

/-- C1 (code defect): `processPeerAcks` does not terminate when the scan meets
a pending entry.  Ledger holding sequence numbers 1 and 0, `m_ack = 1`,
received `(peerAck, peerAckBits) = (1, 0)`: entry 1 is acknowledged and erased,
entry 0 is pending (age 1, bit 0 not set), the iterator is never advanced past
it, and for every bound on the number of iterations the loop has not ended. -/
theorem processPeerAcks_pending_never_returns :
    ∀ fuel : Nat, processPeerAcks fuel
      { m_seqNum := 2, m_ack := 1, m_ackBits := 0,
        m_sent := [mkEntry 1 false, mkEntry 0 false], m_received := [] } 1 0 = none := by
  intro fuel
  cases fuel with
  | zero => rfl
  | succ n =>
    have hstep : processPeerAcksIter 1 0
        { m_seqNum := 2, m_ack := 1, m_ackBits := 0, m_sent := [], m_received := [] }
        (mkEntry 1 false) [mkEntry 0 false]
        = .continuing
            { m_seqNum := 2, m_ack := 1, m_ackBits := 0, m_sent := [], m_received := [] }
            [mkEntry 0 false] := by decide
    simp only [processPeerAcks, processPeerAcksFrom, hstep]
    exact processPeerAcksFrom_stuck 1 0 _ _ _ (by decide) n

/-- C2 (code defect): a ledger whose entries are all acknowledged by the
received fields is not retired when `m_ack` differs from `peerAck`.  After three
reliable sends (sequence numbers 0, 1, 2) a frame with sequence number 0 and
`(ack, ackBits) = (2, 0b11)` arrives: the age is taken from `m_ack = 0`, entry 2
gets age 65534, and all three frames are re-sent under sequence numbers 3, 4, 5;
the ledger keeps three entries and `m_seqNum` becomes 6. -/
theorem handleReceive_acknowledged_ledger_resent :
    ∀ fuel : Nat, handleReceive (fuel + 1)
      { m_seqNum := 3, m_ack := 0, m_ackBits := 0,
        m_sent := [mkEntry 2 true, mkEntry 1 true, mkEntry 0 true], m_received := [] }
      { header := { protocol := 9, seqNum := 0, ack := 2, ackBits := 3 }, payload := [] }
    = some
      { m_seqNum := 6, m_ack := 0, m_ackBits := 1,
        m_sent :=
          [({ header := { protocol := 7, seqNum := 5, ack := 0, ackBits := 1 },
              payload := [0] }, true),
           ({ header := { protocol := 7, seqNum := 4, ack := 0, ackBits := 1 },
              payload := [1] }, true),
           ({ header := { protocol := 7, seqNum := 3, ack := 0, ackBits := 1 },
              payload := [2] }, true)],
        m_received :=
          [{ header := { protocol := 9, seqNum := 0, ack := 2, ackBits := 3 },
             payload := [] }] } := by
  intro fuel
  have hstep : processPeerAcksIter 2 3
      { m_seqNum := 3, m_ack := 0, m_ackBits := 1, m_sent := [], m_received := [] }
      (mkEntry 2 true) [mkEntry 1 true, mkEntry 0 true]
      = .finished
        { m_seqNum := 6, m_ack := 0, m_ackBits := 1,
          m_sent :=
            [({ header := { protocol := 7, seqNum := 5, ack := 0, ackBits := 1 },
                payload := [0] }, true),
             ({ header := { protocol := 7, seqNum := 4, ack := 0, ackBits := 1 },
                payload := [1] }, true),
             ({ header := { protocol := 7, seqNum := 3, ack := 0, ackBits := 1 },
                payload := [2] }, true)],
          m_received := [] } := by decide
  have hack : adjustMyAck
      { m_seqNum := 3, m_ack := 0, m_ackBits := 0,
        m_sent := [mkEntry 2 true, mkEntry 1 true, mkEntry 0 true], m_received := [] } 0
      = { m_seqNum := 3, m_ack := 0, m_ackBits := 1,
          m_sent := [mkEntry 2 true, mkEntry 1 true, mkEntry 0 true], m_received := [] } := by
    decide
  simp only [handleReceive, processHeader, processPeerAcks, hack, processPeerAcksFrom, hstep,
    insertReceived]

/-- C3: when the outer loop of `processPeerAcks` meets an entry `(p, r)` that is
not more recent than `peerAck` and whose age `m_ack - seqNum (mod 65536)` is at
least 32, the loop ends with the sweep of the rest of the ledger, started from a
state `c1` in which the entry is gone and: if `r` is true, exactly one entry
`(p stamped with seqNum = m_seqNum, ack = m_ack, ackBits = m_ackBits; true)` with
the protocol and payload of `p` is in front of the ledger and `m_seqNum` is
incremented (mod 65536); if `r` is false, the state is unchanged.  The sweep
handles every later entry in the same way, and in all it adds one entry per
reliable entry swept, in front of the part of the ledger that was kept. -/
theorem processPeerAcks_expired_entry (peerAck peerAckBits fuel : Nat) (c : UdpConnection)
    (p : UdpPacketBase) (r : Bool) (t : List SentEntry)
    (hold : more_recent p.header.seqNum peerAck = false)
    (hage : 32 ≤ sub16 c.m_ack p.header.seqNum) :
    ∃ c1 : UdpConnection,
      processPeerAcksFrom peerAck peerAckBits (fuel + 1) c ((p, r) :: t) = some (resendTail c1 t)
      ∧ (r = true → c1 =
          { c with
            m_seqNum := (c.m_seqNum + 1) % 65536
            m_sent := ({ header := { protocol := p.header.protocol, seqNum := c.m_seqNum,
                                     ack := c.m_ack, ackBits := c.m_ackBits },
                         payload := p.payload }, true) :: c.m_sent })
      ∧ (r = false → c1 = c)
      ∧ (∀ (d : UdpConnection) (q : UdpPacketBase) (u : List SentEntry),
          resendTail d ((q, true) :: u) = resendTail (send d q true) u
          ∧ resendTail d ((q, false) :: u) = resendTail d u)
      ∧ (∃ fresh : List SentEntry, (resendTail c1 t).m_sent = fresh ++ c1.m_sent
          ∧ fresh.length = (t.filter (fun e => e.2)).length)
      ∧ (resendTail c1 t).m_seqNum % 65536
          = (c1.m_seqNum + (t.filter (fun e => e.2)).length) % 65536 := by
  refine ⟨if r then send c p true else c, ?_, ?_, ?_, ?_, resendTail_sent _ _,
    resendTail_seqNum _ _⟩
  · have h1 : sub16 c.m_ack p.header.seqNum ≥ 32 := hage
    simp only [processPeerAcksFrom, processPeerAcksIter, hold, h1, if_true, resendTail,
      Bool.false_eq_true, if_false]
  · intro hr
    simp [hr, send]
  · intro hr
    simp [hr]
  · intro d q u
    simp [resendTail]

/-- Witness for C3: a reliable entry with sequence number 0, `m_ack = 40`,
received `peerAck = 40`. -/
theorem processPeerAcks_expired_entry_witness :
    ∃ c1 : UdpConnection,
      processPeerAcksFrom 40 0 (0 + 1)
        { m_seqNum := 41, m_ack := 40, m_ackBits := 0, m_sent := [], m_received := [] }
        (((mkEntry 0 true).1, true) :: []) = some (resendTail c1 [])
      ∧ (true = true → c1 =
          { m_seqNum := (41 + 1) % 65536, m_ack := 40, m_ackBits := 0,
            m_sent := [({ header := { protocol := 7, seqNum := 41, ack := 40, ackBits := 0 },
                          payload := [0] }, true)],
            m_received := [] }) := by
  obtain ⟨c1, h1, h2, -⟩ := processPeerAcks_expired_entry 40 0 0
    { m_seqNum := 41, m_ack := 40, m_ackBits := 0, m_sent := [], m_received := [] }
    (mkEntry 0 true).1 true [] (by decide) (by decide)
  exact ⟨c1, h1, h2⟩

/-! ## Receive-ack tracker -/

/-- C4 (code defect): on a fresh connection, receiving sequence number 0 sets
bit 0 of `m_ackBits` while `m_ack` stays 0; bit 0 stands for sequence number
`m_ack - 1 = 65535`, which was not received. -/
theorem adjustMyAck_bit_without_receipt :
    (adjustAll UdpConnection.new [0]).m_ack = 0
      ∧ (adjustAll UdpConnection.new [0]).m_ackBits.testBit 0 = true
      ∧ sub16 (adjustAll UdpConnection.new [0]).m_ack (0 + 1) = 65535
      ∧ 65535 ∉ [0] := by
  decide

/-- C5 (code defect): on a fresh connection, after receiving sequence numbers 1
and then 2, `m_ack = 2` and `m_ackBits = 0`: sequence number 1 was received and
is one behind `m_ack`, yet bit `2 - 1 - 1 = 0` is not set. -/
theorem adjustMyAck_forgets_received :
    (adjustAll UdpConnection.new [1, 2]).m_ack = 2
      ∧ (1 ∈ [1, 2] ∧ 1 ≠ (adjustAll UdpConnection.new [1, 2]).m_ack
          ∧ (adjustAll UdpConnection.new [1, 2]).m_ack - 1 ≤ 32)
      ∧ (adjustAll UdpConnection.new [1, 2]).m_ackBits.testBit
          ((adjustAll UdpConnection.new [1, 2]).m_ack - 1 - 1) = false := by
  decide

/-- C6: for 16-bit `a ≠ b` exactly one of `more_recent a b`, `more_recent b a`
is true; `more_recent a a` is false; `more_recent a b` holds iff (`a > b` and
`a - b ≤ 32768`) or (`b > a` and `b - a > 32768`); `more_recent 0 32768` is
false and `more_recent 32768 0` is true. -/
theorem more_recent_exactly_one (a b : Nat) (_ha : a < 65536) (_hb : b < 65536) :
    (a ≠ b → (more_recent a b = true ∧ more_recent b a = false)
        ∨ (more_recent a b = false ∧ more_recent b a = true))
      ∧ more_recent a a = false
      ∧ (more_recent a b = true ↔ (a > b ∧ a - b ≤ 32768) ∨ (b > a ∧ b - a > 32768))
      ∧ more_recent 0 32768 = false
      ∧ more_recent 32768 0 = true := by
  refine ⟨?_, ?_, ?_, by decide, by decide⟩
  · intro hab
    simp only [more_recent, Bool.or_eq_true, Bool.and_eq_true, decide_eq_true_eq,
      Bool.or_eq_false_iff, Bool.and_eq_false_imp, decide_eq_false_iff_not]
    omega
  · simp [more_recent]
  · simp only [more_recent, Bool.or_eq_true, Bool.and_eq_true, decide_eq_true_eq]

/-- Witness for C6: the pair at exactly half the sequence space. -/
theorem more_recent_exactly_one_witness :
    (0 ≠ 32768 → (more_recent 0 32768 = true ∧ more_recent 32768 0 = false)
        ∨ (more_recent 0 32768 = false ∧ more_recent 32768 0 = true))
      ∧ more_recent 0 0 = false :=
  ⟨(more_recent_exactly_one 0 32768 (by decide) (by decide)).1,
   (more_recent_exactly_one 0 32768 (by decide) (by decide)).2.1⟩

/-- C7: when `s` is more recent than `m_ack`, `adjustMyAck` sets `m_ack` to `s`
and `m_ackBits` to `m_ackBits >> delta` if `delta < 32`, else `0`, where
`delta = s - m_ack (mod 65536)`; the other members are unchanged. -/
theorem adjustMyAck_advance (c : UdpConnection) (s : Nat)
    (hrecent : more_recent s c.m_ack = true) :
    (adjustMyAck c s).m_ack = s
      ∧ (adjustMyAck c s).m_ackBits
          = (if (s + 65536 - c.m_ack) % 65536 < 32
              then c.m_ackBits >>> ((s + 65536 - c.m_ack) % 65536) else 0)
      ∧ (adjustMyAck c s).m_seqNum = c.m_seqNum
      ∧ (adjustMyAck c s).m_sent = c.m_sent
      ∧ (adjustMyAck c s).m_received = c.m_received := by
  simp [adjustMyAck, hrecent, sub16]

/-- Witness for C7: `m_ack = 5`, `m_ackBits = 0b1100`, received `s = 7`. -/
theorem adjustMyAck_advance_witness :
    more_recent 7 5 = true
      ∧ (adjustMyAck
          { m_seqNum := 0, m_ack := 5, m_ackBits := 12, m_sent := [], m_received := [] }
          7).m_ack = 7
      ∧ (adjustMyAck
          { m_seqNum := 0, m_ack := 5, m_ackBits := 12, m_sent := [], m_received := [] }
          7).m_ackBits = 3 :=
  ⟨by decide,
   (adjustMyAck_advance
      { m_seqNum := 0, m_ack := 5, m_ackBits := 12, m_sent := [], m_received := [] }
      7 (by decide)).1,
   by
    have h := (adjustMyAck_advance
      { m_seqNum := 0, m_ack := 5, m_ackBits := 12, m_sent := [], m_received := [] }
      7 (by decide)).2.1
    rw [h]
    decide⟩

/-! ## Sending -/

/-- C8: `send` stamps the frame with `seqNum = m_seqNum` (the value before the
call), `ack = m_ack`, `ackBits = m_ackBits`, keeps its protocol and payload,
puts `(frame, reliable)` in front of the old `m_sent`, sets `m_seqNum` to
`(m_seqNum + 1) mod 65536` and leaves `m_ack`, `m_ackBits`, `m_received`
unchanged. -/
theorem send_stamps_and_records (c : UdpConnection) (packet : UdpPacketBase) (reliable : Bool) :
    (send c packet reliable).m_sent
        = ({ header := { protocol := packet.header.protocol, seqNum := c.m_seqNum,
                         ack := c.m_ack, ackBits := c.m_ackBits },
             payload := packet.payload }, reliable) :: c.m_sent
      ∧ (send c packet reliable).m_seqNum = (c.m_seqNum + 1) % 65536
      ∧ (send c packet reliable).m_ack = c.m_ack
      ∧ (send c packet reliable).m_ackBits = c.m_ackBits
      ∧ (send c packet reliable).m_received = c.m_received := by
  simp [send]

/-! ## Receive reordering and dispatch -/

/-- C9: starting from an empty `m_received`, after frames whose sequence numbers
are pairwise distinct and lie within one arc of fewer than 32768 consecutive
sequence numbers (offsets from `base` below 32767) have been received through
`handleReceive`, `dispatchReceivedPackets` delivers exactly these frames, and of
any two delivered frames the earlier one is not more recent than the later one
(the later one is more recent than the earlier one).  When nothing is in the
sent ledger, every `handleReceive` of the sequence returns. -/
theorem receive_then_dispatch_ascending (fuel base : Nat) (c0 : UdpConnection)
    (pkts : List UdpPacketBase)
    (hempty : c0.m_received = [])
    (hdistinct : (pkts.map (fun p => p.header.seqNum)).Nodup)
    (hbase : base < 65536)
    (harc : ∀ p ∈ pkts, p.header.seqNum < 65536 ∧ sub16 p.header.seqNum base < 32767) :
    (∀ c1, receiveAll fuel c0 pkts = some c1 →
        (dispatchReceivedPackets c1).1.Perm pkts
        ∧ (dispatchReceivedPackets c1).1.Pairwise (fun earlier later =>
            more_recent earlier.header.seqNum later.header.seqNum = false
            ∧ more_recent later.header.seqNum earlier.header.seqNum = true))
      ∧ (c0.m_sent = [] → ∃ c1, receiveAll fuel c0 pkts = some c1) := by
  refine ⟨?_, receiveAll_total_of_nothing_sent fuel pkts c0⟩
  intro c1 hrecv
  have hbuf := receiveAll_received fuel pkts c0 c1 hrecv
  rw [hempty] at hbuf
  have hperm : (dispatchReceivedPackets c1).1.Perm pkts := by
    simp only [dispatchReceivedPackets, hbuf]
    refine (List.reverse_perm _).trans ?_
    simpa using foldl_insertReceived_perm pkts []
  refine ⟨hperm, ?_⟩
  have hsorted : (dispatchReceivedPackets c1).1.Pairwise
      (fun x y => sub16 x.header.seqNum base ≤ sub16 y.header.seqNum base) := by
    simp only [dispatchReceivedPackets, hbuf, List.pairwise_reverse]
    exact foldl_insertReceived_sorted base hbase pkts harc [] (by simp) List.Pairwise.nil
  have hnodup : (dispatchReceivedPackets c1).1.Pairwise
      (fun x y => x.header.seqNum ≠ y.header.seqNum) := by
    have h1 : ((dispatchReceivedPackets c1).1.map (fun p => p.header.seqNum)).Nodup :=
      ((hperm.map _).nodup_iff).2 hdistinct
    simpa [List.Nodup, List.pairwise_map] using h1
  refine (hsorted.and hnodup).imp_of_mem ?_
  intro x y hx hy hxy
  have hax := harc x (hperm.subset hx)
  have hay := harc y (hperm.subset hy)
  have hlt : sub16 x.header.seqNum base < sub16 y.header.seqNum base := by
    have h1 := hxy.1
    have h2 := hxy.2
    simp only [sub16] at *
    omega
  constructor
  · cases hm : more_recent x.header.seqNum y.header.seqNum with
    | false => rfl
    | true =>
      have := (more_recent_iff_offset base _ _ hbase hax.1 hay.1 hax.2 hay.2).1 hm
      omega
  · exact (more_recent_iff_offset base _ _ hbase hay.1 hax.1 hay.2 hax.2).2 hlt

/-- Witness for C9: receiving sequence number 5 and then 3 on a fresh
connection dispatches in the order `[3, 5]`. -/
theorem receive_then_dispatch_ascending_witness :
    receiveAll 0 UdpConnection.new [(mkEntry 5 false).1, (mkEntry 3 false).1]
        = some
          { m_seqNum := 0, m_ack := 5, m_ackBits := 4, m_sent := [],
            m_received := [(mkEntry 5 false).1, (mkEntry 3 false).1] }
      ∧ (dispatchReceivedPackets
          { m_seqNum := 0, m_ack := 5, m_ackBits := 4, m_sent := [],
            m_received := [(mkEntry 5 false).1, (mkEntry 3 false).1] }).1
        = [(mkEntry 3 false).1, (mkEntry 5 false).1]
      ∧ (dispatchReceivedPackets
          { m_seqNum := 0, m_ack := 5, m_ackBits := 4, m_sent := [],
            m_received := [(mkEntry 5 false).1, (mkEntry 3 false).1] }).1.Pairwise
          (fun earlier later =>
            more_recent earlier.header.seqNum later.header.seqNum = false
            ∧ more_recent later.header.seqNum earlier.header.seqNum = true) :=
  ⟨by decide, by decide,
   ((receive_then_dispatch_ascending 0 3 UdpConnection.new
      [(mkEntry 5 false).1, (mkEntry 3 false).1] rfl (by decide) (by decide)
      (by decide)).1 _ (by decide)).2⟩

/-- C10: `dispatchReceivedPackets` passes the frames of `m_received` to the
dispatcher once each, in the reverse of the storage order, and leaves
`m_received` empty and `m_seqNum`, `m_ack`, `m_ackBits`, `m_sent` unchanged. -/
theorem dispatchReceivedPackets_reverse_and_clear (c : UdpConnection) :
    (dispatchReceivedPackets c).1 = c.m_received.reverse
      ∧ (dispatchReceivedPackets c).1.length = c.m_received.length
      ∧ (∀ p, (dispatchReceivedPackets c).1.count p = c.m_received.count p)
      ∧ (dispatchReceivedPackets c).2.m_received = []
      ∧ (dispatchReceivedPackets c).2.m_seqNum = c.m_seqNum
      ∧ (dispatchReceivedPackets c).2.m_ack = c.m_ack
      ∧ (dispatchReceivedPackets c).2.m_ackBits = c.m_ackBits
      ∧ (dispatchReceivedPackets c).2.m_sent = c.m_sent := by
  simp [dispatchReceivedPackets]

/-! ## Wire frame -/

/-- C11: `parseIncoming` (the constructor `Packet(data, len)`) fails with the
malformed-frame error if and only if `len < headerSize`, in particular for the
empty buffer; for `len ≥ headerSize` it succeeds and the buffer of the frame is
the input, byte for byte. -/
theorem parseIncoming_fails_iff_short (data : List Nat) :
    (Packet.parseIncoming data = .error .malformedFrame ↔ data.length < headerSize)
      ∧ (headerSize ≤ data.length → Packet.parseIncoming data = .ok { m_buffer := data })
      ∧ (data.length < headerSize → ∀ f, Packet.parseIncoming data ≠ .ok f)
      ∧ Packet.parseIncoming [] = .error .malformedFrame := by
  refine ⟨?_, ?_, ?_, rfl⟩
  · unfold Packet.parseIncoming
    split
    · simp [*]
    · simp [*]
  · intro h
    have h1 : ¬ data.length < headerSize := by omega
    simp [Packet.parseIncoming, h1]
  · intro h f
    simp [Packet.parseIncoming, h]

/-- C16, as stated, fails: `parseIncoming` of 513 zero bytes succeeds and the
frame has a buffer of 513 bytes, above the 512 of `cMaxUdpPacketSize`. -/
theorem parseIncoming_exceeds_cap :
    ∃ f, Packet.parseIncoming (List.replicate 513 0) = .ok f
      ∧ f.m_buffer.length = 513
      ∧ ¬ (headerSize ≤ f.m_buffer.length ∧ f.m_buffer.length ≤ 512) := by
  have hlen : (List.replicate 513 0).length = 513 := List.length_replicate 513 0
  refine ⟨{ m_buffer := List.replicate 513 0 }, ?_, hlen, ?_⟩
  · have h : ¬ (List.replicate 513 0).length < headerSize := by
      rw [hlen]
      decide
    simp only [Packet.parseIncoming, h, if_false]
  · intro h
    have h2 := h.2
    rw [hlen] at h2
    omega

/-- C16, amended: the buffer of `newOutgoing protocol` has exactly `headerSize`
bytes, which is at most 512; the buffer of a successful `parseIncoming data` has
the length of `data`, at least `headerSize`, and is at most 512 bytes long
exactly when `data` is. -/
theorem frame_length_bounds (protocol : Nat) (data : List Nat) (f : Packet)
    (hparse : Packet.parseIncoming data = .ok f) :
    (Packet.newOutgoing protocol).m_buffer.length = headerSize
      ∧ headerSize ≤ cMaxUdpPacketSize
      ∧ headerSize ≤ f.m_buffer.length
      ∧ f.m_buffer.length = data.length
      ∧ (f.m_buffer.length ≤ cMaxUdpPacketSize ↔ data.length ≤ cMaxUdpPacketSize) := by
  have hf : ¬ data.length < headerSize ∧ f = { m_buffer := data } := by
    unfold Packet.parseIncoming at hparse
    split at hparse
    · cases hparse
    · rename_i h
      simp only [Except.ok.injEq] at hparse
      exact ⟨h, hparse.symm⟩
  obtain ⟨hlen, rfl⟩ := hf
  refine ⟨by simp [Packet.newOutgoing, write16], by decide, by simpa using hlen, rfl, Iff.rfl⟩

/-- Witness for C16, amended: a buffer of exactly `headerSize` zero bytes. -/
theorem frame_length_bounds_witness :
    Packet.parseIncoming (List.replicate 12 0) = .ok { m_buffer := List.replicate 12 0 }
      ∧ (Packet.newOutgoing 7).m_buffer.length = headerSize
      ∧ headerSize ≤ (List.replicate 12 0).length :=
  ⟨by simp [Packet.parseIncoming, headerSize],
   (frame_length_bounds 7 (List.replicate 12 0) { m_buffer := List.replicate 12 0 }
      (by simp [Packet.parseIncoming, headerSize])).1,
   (frame_length_bounds 7 (List.replicate 12 0) { m_buffer := List.replicate 12 0 }
      (by simp [Packet.parseIncoming, headerSize])).2.2.1⟩

/-! ## Send completion -/

/-- C13: a send completion reporting failure for `n` leaves in `m_sent` exactly
the entries whose sequence number is not `n`, in their order, and changes
nothing else (no retry: `m_seqNum`, `m_ack`, `m_ackBits`, `m_received` are
unchanged and no entry is added); a completion reporting success leaves the
state unchanged. -/
theorem handleSend_failure_drops_without_retry (c : UdpConnection) (n : Nat) :
    (handleSend c n true).m_sent
        = c.m_sent.filter (fun e => decide (e.1.header.seqNum ≠ n))
      ∧ (handleSend c n true).m_sent.Sublist c.m_sent
      ∧ (∀ e, e ∈ (handleSend c n true).m_sent ↔ (e ∈ c.m_sent ∧ e.1.header.seqNum ≠ n))
      ∧ (handleSend c n true).m_seqNum = c.m_seqNum
      ∧ (handleSend c n true).m_ack = c.m_ack
      ∧ (handleSend c n true).m_ackBits = c.m_ackBits
      ∧ (handleSend c n true).m_received = c.m_received
      ∧ handleSend c n false = c := by
  refine ⟨?_, ?_, ?_, rfl, rfl, rfl, rfl, rfl⟩
  · simp [handleSend]
  · simp only [handleSend, if_true]
    exact List.filter_sublist _
  · intro e
    simp [handleSend]

/-! ## Receive-ack tracker: monotonicity and the older branch -/

/-- C17: `adjustMyAck` never moves `m_ack` backward: the old `m_ack` is not more
recent than the new one, and the new `m_ack` is `s` or the old `m_ack`. -/
theorem adjustMyAck_never_backward (c : UdpConnection) (s : Nat) :
    more_recent c.m_ack (adjustMyAck c s).m_ack = false
      ∧ ((adjustMyAck c s).m_ack = s ∨ (adjustMyAck c s).m_ack = c.m_ack) := by
  cases h : more_recent s c.m_ack with
  | true =>
    have hnew : (adjustMyAck c s).m_ack = s := by simp [adjustMyAck, h]
    rw [hnew]
    refine ⟨?_, Or.inl rfl⟩
    simp only [more_recent, Bool.or_eq_true, Bool.and_eq_true, decide_eq_true_eq] at h
    simp only [more_recent, Bool.or_eq_false_iff, Bool.and_eq_false_imp, decide_eq_true_eq,
      decide_eq_false_iff_not]
    omega
  | false =>
    have hnew : (adjustMyAck c s).m_ack = c.m_ack := by
      unfold adjustMyAck
      simp only [h, Bool.false_eq_true, if_false]
      split <;> rfl
    rw [hnew]
    exact ⟨by simp [more_recent], Or.inr rfl⟩

/-- C18: when `s` is not more recent than `m_ack`, `adjustMyAck` leaves `m_ack`
unchanged; with `delta = m_ack - s (mod 65536)`, if `delta < 32` the new
`m_ackBits` is the old one with bit `delta` set, and if `delta ≥ 32` it is the
old one. -/
theorem adjustMyAck_older_sets_bit (c : UdpConnection) (s : Nat)
    (hold : more_recent s c.m_ack = false) (hbits : c.m_ackBits < 2 ^ 32) :
    (adjustMyAck c s).m_ack = c.m_ack
      ∧ ((c.m_ack + 65536 - s) % 65536 < 32 →
          (adjustMyAck c s).m_ackBits = c.m_ackBits ||| 2 ^ ((c.m_ack + 65536 - s) % 65536)
          ∧ ∀ k, (adjustMyAck c s).m_ackBits.testBit k
              = (c.m_ackBits.testBit k || decide (k = (c.m_ack + 65536 - s) % 65536)))
      ∧ (32 ≤ (c.m_ack + 65536 - s) % 65536 → (adjustMyAck c s).m_ackBits = c.m_ackBits) := by
  refine ⟨?_, ?_, ?_⟩
  · unfold adjustMyAck
    simp only [hold, Bool.false_eq_true, if_false]
    split <;> rfl
  · intro hd
    have hpow : 2 ^ ((c.m_ack + 65536 - s) % 65536) < 2 ^ 32 :=
      Nat.pow_lt_pow_right (by decide) hd
    have hlt : c.m_ackBits ||| 2 ^ ((c.m_ack + 65536 - s) % 65536) < 2 ^ 32 :=
      Nat.or_lt_two_pow hbits hpow
    have hnew : (adjustMyAck c s).m_ackBits
        = c.m_ackBits ||| 2 ^ ((c.m_ack + 65536 - s) % 65536) := by
      simp only [adjustMyAck, hold, Bool.false_eq_true, if_false, sub16, hd, if_true,
        Nat.one_shiftLeft]
      exact Nat.mod_eq_of_lt hlt
    refine ⟨hnew, ?_⟩
    intro k
    rw [hnew, Nat.testBit_or, Nat.testBit_two_pow]
    congr 1
    simp [eq_comm]
  · intro hd
    have hd2 : ¬ (c.m_ack + 65536 - s) % 65536 < 32 := by omega
    simp only [adjustMyAck, hold, Bool.false_eq_true, if_false, sub16, hd2]

/-- Witness for C18: `m_ack = 10`, `m_ackBits = 0b1`, received `s = 7`. -/
theorem adjustMyAck_older_sets_bit_witness :
    more_recent 7 10 = false
      ∧ (adjustMyAck
          { m_seqNum := 0, m_ack := 10, m_ackBits := 1, m_sent := [], m_received := [] }
          7).m_ack = 10
      ∧ (adjustMyAck
          { m_seqNum := 0, m_ack := 10, m_ackBits := 1, m_sent := [], m_received := [] }
          7).m_ackBits = 9 :=
  ⟨by decide,
   (adjustMyAck_older_sets_bit
      { m_seqNum := 0, m_ack := 10, m_ackBits := 1, m_sent := [], m_received := [] }
      7 (by decide) (by decide)).1,
   by
    have h := ((adjustMyAck_older_sets_bit
      { m_seqNum := 0, m_ack := 10, m_ackBits := 1, m_sent := [], m_received := [] }
      7 (by decide) (by decide)).2.1 (by decide)).1
    rw [h]
    decide⟩

/-! ## Wire frame: round trip -/

/-- C12: an outgoing frame built by `newOutgoing protocol`, with `payload`
appended and the header stamped with `seqNum`, `ack`, `ackBits`, carries
exactly these header fields and this payload; `parseIncoming` of its buffer
succeeds, and the frame it yields has the same buffer, hence the same
`protocol`, `seqNum`, `ack`, `ackBits` and payload bytes. -/
theorem parseIncoming_roundtrip (protocol seqNum ack ackBits : Nat) (payload : List Nat)
    (hp : protocol < 65536) (hs : seqNum < 65536) (ha : ack < 65536)
    (hb : ackBits < 2 ^ 32) :
    (((Packet.newOutgoing protocol).appendPayload payload).stamp seqNum ack ackBits).header
        = { protocol := protocol, seqNum := seqNum, ack := ack, ackBits := ackBits }
      ∧ (((Packet.newOutgoing protocol).appendPayload payload).stamp seqNum ack ackBits).payload
        = payload
      ∧ ∃ g, Packet.parseIncoming
            (((Packet.newOutgoing protocol).appendPayload payload).stamp
              seqNum ack ackBits).m_buffer = .ok g
          ∧ g.header
            = (((Packet.newOutgoing protocol).appendPayload payload).stamp
                seqNum ack ackBits).header
          ∧ g.payload
            = (((Packet.newOutgoing protocol).appendPayload payload).stamp
                seqNum ack ackBits).payload := by
  have hbuf : (((Packet.newOutgoing protocol).appendPayload payload).stamp
      seqNum ack ackBits).m_buffer
      = [protocol % 256, protocol / 256 % 256, seqNum % 256, seqNum / 256 % 256,
         ack % 256, ack / 256 % 256, 0, 0, ackBits % 256, ackBits / 256 % 256,
         ackBits / 65536 % 256, ackBits / 16777216 % 256] ++ payload := rfl
  refine ⟨?_, ?_, ?_⟩
  · have h1 : protocol % 256 + 256 * (protocol / 256 % 256) = protocol := by omega
    have h2 : seqNum % 256 + 256 * (seqNum / 256 % 256) = seqNum := by omega
    have h3 : ack % 256 + 256 * (ack / 256 % 256) = ack := by omega
    have h4 : ackBits % 256 + 256 * (ackBits / 256 % 256) + 65536 * (ackBits / 65536 % 256)
        + 16777216 * (ackBits / 16777216 % 256) = ackBits := by
      have : (2 : Nat) ^ 32 = 4294967296 := by norm_num
      omega
    simp only [Packet.header, hbuf, read16, read32]
    simp only [List.cons_append, List.getD_cons_succ, List.getD_cons_zero, h1, h2, h3, h4]
  · simp only [Packet.payload, hbuf]
    rfl
  · refine ⟨_, ?_, rfl, rfl⟩
    have hlen : ¬ (((Packet.newOutgoing protocol).appendPayload payload).stamp
        seqNum ack ackBits).m_buffer.length < headerSize := by
      rw [hbuf]
      simp [headerSize]
    simp only [Packet.parseIncoming, hlen, if_false]

/-- Witness for C12: protocol 258, payload `[9, 8]`, stamped with sequence
number 5, ack 6 and all 32 acknowledgment bits set. -/
theorem parseIncoming_roundtrip_witness :
    (((Packet.newOutgoing 258).appendPayload [9, 8]).stamp 5 6 4294967295).header
        = { protocol := 258, seqNum := 5, ack := 6, ackBits := 4294967295 }
      ∧ (((Packet.newOutgoing 258).appendPayload [9, 8]).stamp 5 6 4294967295).payload
        = [9, 8] :=
  ⟨(parseIncoming_roundtrip 258 5 6 4294967295 [9, 8] (by decide) (by decide) (by decide)
      (by decide)).1,
   (parseIncoming_roundtrip 258 5 6 4294967295 [9, 8] (by decide) (by decide) (by decide)
      (by decide)).2.1⟩

/-! ## Helper lemmas: reception on a connection that has sent nothing -/

theorem more_recent_asymm (a b : Nat) (h : more_recent a b = true) :
    more_recent b a = false := by
  simp only [more_recent, Bool.or_eq_true, Bool.and_eq_true, decide_eq_true_eq] at h
  simp only [more_recent, Bool.or_eq_false_iff, Bool.and_eq_false_imp, decide_eq_true_eq,
    decide_eq_false_iff_not]
  omega

theorem adjustMyAck_ack_below (c : UdpConnection) (s : Nat)
    (hc : c.m_ack < 32768) (hs : s < 32768) :
    (adjustMyAck c s).m_ack = max c.m_ack s := by
  cases h : more_recent s c.m_ack with
  | true =>
    have hnew : (adjustMyAck c s).m_ack = s := by simp [adjustMyAck, h]
    simp only [more_recent, Bool.or_eq_true, Bool.and_eq_true, decide_eq_true_eq] at h
    rw [hnew]
    omega
  | false =>
    have hnew : (adjustMyAck c s).m_ack = c.m_ack := by
      unfold adjustMyAck
      simp only [h, Bool.false_eq_true, if_false]
      split <;> rfl
    simp only [more_recent, Bool.or_eq_false_iff, Bool.and_eq_false_imp, decide_eq_true_eq,
      decide_eq_false_iff_not] at h
    rw [hnew]
    omega

theorem handleReceive_of_nothing_sent (fuel : Nat) (c : UdpConnection) (p : UdpPacketBase)
    (hc : c.m_sent = []) :
    ∃ c1, handleReceive fuel c p = some c1 ∧ c1.m_sent = []
      ∧ c1.m_ack = (adjustMyAck c p.header.seqNum).m_ack := by
  refine ⟨{ adjustMyAck c p.header.seqNum with
            m_sent := []
            m_received := insertReceived p (adjustMyAck c p.header.seqNum).m_received },
    ?_, rfl, rfl⟩
  simp only [handleReceive, processHeader, processPeerAcks, adjustMyAck_sent, hc]
  cases fuel <;> rfl

theorem receiveAll_ack_of_nothing_sent (fuel : Nat) (pkts : List UdpPacketBase) :
    ∀ c : UdpConnection, c.m_sent = [] → c.m_ack < 32768 →
      (∀ p ∈ pkts, p.header.seqNum < 32768) →
      ∃ c1, receiveAll fuel c pkts = some c1
        ∧ (c1.m_ack = c.m_ack ∨ ∃ p ∈ pkts, c1.m_ack = p.header.seqNum)
        ∧ c.m_ack ≤ c1.m_ack
        ∧ (∀ p ∈ pkts, p.header.seqNum ≤ c1.m_ack)
        ∧ c1.m_ack < 32768 := by
  induction pkts with
  | nil =>
    intro c _ hack _
    exact ⟨c, rfl, Or.inl rfl, Nat.le_refl _, by simp, hack⟩
  | cons p ps ih =>
    intro c hc hack hlt
    have hp := hlt p (List.mem_cons_self p ps)
    obtain ⟨c2, h2, hs2, ha2⟩ := handleReceive_of_nothing_sent fuel c p hc
    rw [adjustMyAck_ack_below c _ hack hp] at ha2
    have hack2 : c2.m_ack < 32768 := by omega
    obtain ⟨c1, h1, hmem, hle, hall, hlt1⟩ :=
      ih c2 hs2 hack2 (fun q hq => hlt q (List.mem_cons_of_mem p hq))
    refine ⟨c1, by simp only [receiveAll, h2, h1], ?_, by omega, ?_, hlt1⟩
    · rcases hmem with h | ⟨q, hq, h⟩
      · by_cases hcase : c.m_ack ≤ p.header.seqNum
        · exact Or.inr ⟨p, List.mem_cons_self p ps, by omega⟩
        · exact Or.inl (by omega)
      · exact Or.inr ⟨q, List.mem_cons_of_mem p hq, h⟩
    · intro q hq
      rcases List.mem_cons.1 hq with rfl | hq
      · omega
      · exact hall q hq

theorem insertReceived_split (f : UdpPacketBase) (l : List UdpPacketBase) :
    ∃ pre post, l = pre ++ post ∧ insertReceived f l = pre ++ f :: post
      ∧ (∀ e ∈ pre, more_recent_packet f e = false)
      ∧ (∀ e, post.head? = some e → more_recent_packet f e = true) := by
  induction l with
  | nil => exact ⟨[], [], rfl, rfl, by simp, by simp⟩
  | cons e t ih =>
    unfold insertReceived
    split
    · rename_i h
      refine ⟨[], e :: t, rfl, rfl, by simp, ?_⟩
      intro x hx
      simp only [List.head?_cons, Option.some.injEq] at hx
      rw [← hx]
      exact h
    · rename_i h
      obtain ⟨pre, post, h1, h2, h3, h4⟩ := ih
      refine ⟨e :: pre, post, by rw [h1]; rfl, by rw [h2]; rfl, ?_, h4⟩
      intro x hx
      rcases List.mem_cons.1 hx with rfl | hx
      · simpa using h
      · exact h3 x hx

theorem insertReceived_chain (f : UdpPacketBase) (l : List UdpPacketBase)
    (hl : l.Chain' (fun a b => more_recent_packet b a = false)) :
    (insertReceived f l).Chain' (fun a b => more_recent_packet b a = false) := by
  induction l with
  | nil => simp [insertReceived]
  | cons e t ih =>
    unfold insertReceived
    split
    · rename_i h
      exact List.Chain'.cons (more_recent_asymm _ _ h) hl
    · rename_i h
      have hfe : more_recent_packet f e = false := by simpa using h
      rw [List.chain'_cons'] at hl ⊢
      refine ⟨?_, ih hl.2⟩
      intro y hy
      cases t with
      | nil =>
        simp only [insertReceived, List.head?_cons, Option.mem_def, Option.some.injEq] at hy
        rw [← hy]
        exact hfe
      | cons e2 t2 =>
        unfold insertReceived at hy
        split at hy
        · simp only [List.head?_cons, Option.mem_def, Option.some.injEq] at hy
          rw [← hy]
          exact hfe
        · simp only [List.head?_cons, Option.mem_def, Option.some.injEq] at hy
          exact hl.1 y (by simp [hy])

/-! ## Most recent sequence number received -/

/-- C14: on a fresh connection, after a non-empty sequence of frames with
sequence numbers below 32768 has been received through `handleReceive` (every
call returns), `m_ack` is the sequence number of one of the received frames and
no received sequence number is more recent than it. -/
theorem receiveAll_ack_is_most_recent (fuel : Nat) (pkts : List UdpPacketBase)
    (hne : pkts ≠ []) (hlt : ∀ p ∈ pkts, p.header.seqNum < 32768) :
    ∃ c1, receiveAll fuel UdpConnection.new pkts = some c1
      ∧ (∃ p ∈ pkts, c1.m_ack = p.header.seqNum)
      ∧ (∀ p ∈ pkts, more_recent p.header.seqNum c1.m_ack = false) := by
  obtain ⟨c1, h1, hmem, -, hall, hlt1⟩ :=
    receiveAll_ack_of_nothing_sent fuel pkts UdpConnection.new rfl (by decide) hlt
  refine ⟨c1, h1, ?_, ?_⟩
  · rcases hmem with h | h
    · cases pkts with
      | nil => exact absurd rfl hne
      | cons p ps =>
        have hp := hall p (List.mem_cons_self p ps)
        have h0 : c1.m_ack = 0 := h
        exact ⟨p, List.mem_cons_self p ps, by omega⟩
    · exact h
  · intro p hp
    have h1 := hall p hp
    have h2 := hlt p hp
    simp only [more_recent, Bool.or_eq_false_iff, Bool.and_eq_false_imp, decide_eq_true_eq,
      decide_eq_false_iff_not]
    omega

/-- Witness for C14: frames 3, 9, 4 received on a fresh connection leave
`m_ack = 9`. -/
theorem receiveAll_ack_is_most_recent_witness :
    (∃ c1, receiveAll 0 UdpConnection.new
          [(mkEntry 3 false).1, (mkEntry 9 false).1, (mkEntry 4 false).1] = some c1
        ∧ (∃ p ∈ [(mkEntry 3 false).1, (mkEntry 9 false).1, (mkEntry 4 false).1],
            c1.m_ack = p.header.seqNum)
        ∧ (∀ p ∈ [(mkEntry 3 false).1, (mkEntry 9 false).1, (mkEntry 4 false).1],
            more_recent p.header.seqNum c1.m_ack = false))
      ∧ (adjustAll UdpConnection.new [3, 9, 4]).m_ack = 9 :=
  ⟨receiveAll_ack_is_most_recent 0
      [(mkEntry 3 false).1, (mkEntry 9 false).1, (mkEntry 4 false).1] (by decide) (by decide),
   by decide⟩

/-! ## Insertion into the receive buffer -/

/-- C19: when `handleReceive` returns, the new `m_received` is the old one with
the frame `f` inserted once: the old buffer is `pre ++ post`, the new one is
`pre ++ f :: post`, `f` is more recent than no entry of `pre` and is more recent
than the first entry of `post` (if any); nothing is removed, whatever the
sequence numbers already present.  If in the old buffer no entry is more recent
than the entry directly before it, the same holds in the new buffer. -/
theorem handleReceive_inserts_once (fuel : Nat) (c c1 : UdpConnection) (f : UdpPacketBase)
    (hrecv : handleReceive fuel c f = some c1) :
    (∃ pre post, c.m_received = pre ++ post ∧ c1.m_received = pre ++ f :: post
        ∧ (∀ e ∈ pre, more_recent_packet f e = false)
        ∧ (∀ e, post.head? = some e → more_recent_packet f e = true))
      ∧ (c.m_received.Chain' (fun a b => more_recent_packet b a = false) →
          c1.m_received.Chain' (fun a b => more_recent_packet b a = false)) := by
  have hbuf := handleReceive_received fuel c c1 f hrecv
  rw [hbuf]
  exact ⟨insertReceived_split f c.m_received, insertReceived_chain f c.m_received⟩

/-- Witness for C19: frame 5 arrives a second time while the buffer holds 7, 5
and 3; it is inserted in front of 3, behind the 5 already there. -/
theorem handleReceive_inserts_once_witness :
    handleReceive 0
        { m_seqNum := 0, m_ack := 7, m_ackBits := 0, m_sent := [],
          m_received := [(mkEntry 7 false).1, (mkEntry 5 false).1, (mkEntry 3 false).1] }
        (mkEntry 5 false).1
      = some
        { m_seqNum := 0, m_ack := 7, m_ackBits := 4, m_sent := [],
          m_received := [(mkEntry 7 false).1, (mkEntry 5 false).1, (mkEntry 5 false).1,
                         (mkEntry 3 false).1] }
      ∧ ((List.Chain' (fun a b => more_recent_packet b a = false)
            [(mkEntry 7 false).1, (mkEntry 5 false).1, (mkEntry 3 false).1]) →
          (List.Chain' (fun a b => more_recent_packet b a = false)
            [(mkEntry 7 false).1, (mkEntry 5 false).1, (mkEntry 5 false).1,
             (mkEntry 3 false).1])) :=
  ⟨by decide,
   (handleReceive_inserts_once 0
      { m_seqNum := 0, m_ack := 7, m_ackBits := 0, m_sent := [],
        m_received := [(mkEntry 7 false).1, (mkEntry 5 false).1, (mkEntry 3 false).1] }
      { m_seqNum := 0, m_ack := 7, m_ackBits := 4, m_sent := [],
        m_received := [(mkEntry 7 false).1, (mkEntry 5 false).1, (mkEntry 5 false).1,
                       (mkEntry 3 false).1] }
      (mkEntry 5 false).1 (by decide)).2⟩

/-! ## Helper lemmas: sequence numbers in the sent ledger -/

theorem resendTail_distinct (l : List SentEntry) :
    ∀ (c : UdpConnection) (n : Nat), c.m_seqNum = n →
      (∀ e ∈ c.m_sent, e.1.header.seqNum < n) →
      (c.m_sent.map (fun e => e.1.header.seqNum)).Nodup →
      n + resendCount l < 65536 →
      (resendTail c l).m_seqNum = n + resendCount l
        ∧ (∀ e ∈ (resendTail c l).m_sent, e.1.header.seqNum < n + resendCount l)
        ∧ ((resendTail c l).m_sent.map (fun e => e.1.header.seqNum)).Nodup := by
  induction l with
  | nil =>
    intro c n hn hlt hnd _
    exact ⟨by simpa [resendTail, resendCount] using hn,
      by simpa [resendTail, resendCount] using hlt, by simpa [resendTail] using hnd⟩
  | cons e t ih =>
    intro c n hn hlt hnd hcount
    obtain ⟨p, r⟩ := e
    cases r with
    | false =>
      have hrc : resendCount ((p, false) :: t) = resendCount t := by simp [resendCount]
      rw [hrc] at hcount ⊢
      simpa [resendTail] using ih c n hn hlt hnd hcount
    | true =>
      have hrc : resendCount ((p, true) :: t) = resendCount t + 1 := by simp [resendCount]
      rw [hrc] at hcount ⊢
      have hstep := ih (send c p true) (n + 1)
        (by simp only [send, hn]; omega)
        (by
          intro x hx
          simp only [send, List.mem_cons] at hx
          rcases hx with rfl | hx
          · simp only [hn]; omega
          · have := hlt x hx
            omega)
        (by
          simp only [send, List.map_cons, List.nodup_cons, hn]
          refine ⟨?_, hnd⟩
          intro hmem
          obtain ⟨x, hx, hxn⟩ := List.mem_map.1 hmem
          have := hlt x hx
          omega)
        (by omega)
      have hadd : n + 1 + resendCount t = n + (resendCount t + 1) := by omega
      rw [hadd] at hstep
      simpa [resendTail] using hstep

theorem processPeerAcksIter_cases (peerAck peerAckBits : Nat) (c : UdpConnection)
    (e : SentEntry) (t : List SentEntry) :
    processPeerAcksIter peerAck peerAckBits c e t
        = .continuing { c with m_sent := c.m_sent ++ [e] } t
      ∨ processPeerAcksIter peerAck peerAckBits c e t = .finished (resendTail c (e :: t))
      ∨ processPeerAcksIter peerAck peerAckBits c e t = .continuing c t
      ∨ processPeerAcksIter peerAck peerAckBits c e t = .continuing c (e :: t) := by
  unfold processPeerAcksIter
  simp only
  split
  · exact Or.inl rfl
  · split
    · exact Or.inr (Or.inl rfl)
    · split
      · exact Or.inr (Or.inr (Or.inl rfl))
      · split
        · exact Or.inr (Or.inr (Or.inl rfl))
        · exact Or.inr (Or.inr (Or.inr rfl))

theorem processPeerAcksFrom_distinct (peerAck peerAckBits : Nat) :
    ∀ (fuel : Nat) (c : UdpConnection) (it : List SentEntry) (n : Nat) (c1 : UdpConnection),
      c.m_seqNum = n →
      (∀ e ∈ c.m_sent ++ it, e.1.header.seqNum < n) →
      ((c.m_sent ++ it).map (fun e => e.1.header.seqNum)).Nodup →
      processPeerAcksFrom peerAck peerAckBits fuel c it = some c1 →
      n + scanSendCount peerAck peerAckBits fuel c it < 65536 →
      c1.m_seqNum = n + scanSendCount peerAck peerAckBits fuel c it
        ∧ (∀ e ∈ c1.m_sent, e.1.header.seqNum < n + scanSendCount peerAck peerAckBits fuel c it)
        ∧ (c1.m_sent.map (fun e => e.1.header.seqNum)).Nodup := by
  intro fuel
  induction fuel with
  | zero =>
    intro c it n c1 hn hlt hnd hrun _
    cases it with
    | nil =>
      simp only [processPeerAcksFrom, Option.some.injEq] at hrun
      subst hrun
      simpa [scanSendCount] using And.intro hn (And.intro hlt hnd)
    | cons e t => simp [processPeerAcksFrom] at hrun
  | succ k ih =>
    intro c it n c1 hn hlt hnd hrun hcount
    cases it with
    | nil =>
      simp only [processPeerAcksFrom, Option.some.injEq] at hrun
      subst hrun
      simpa [scanSendCount] using And.intro hn (And.intro hlt hnd)
    | cons e t =>
      have hsub : (c.m_sent ++ t).Sublist (c.m_sent ++ e :: t) :=
        List.Sublist.append_left (List.sublist_cons_self e t) _
      rcases processPeerAcksIter_cases peerAck peerAckBits c e t with h | h | h | h
      · simp only [processPeerAcksFrom, scanSendCount, h] at hrun hcount ⊢
        exact ih _ t n c1 hn (by simpa using hlt) (by simpa using hnd) hrun hcount
      · simp only [processPeerAcksFrom, scanSendCount, h, Option.some.injEq] at hrun hcount ⊢
        subst hrun
        exact resendTail_distinct (e :: t) c n hn
          (fun x hx => hlt x (List.mem_append_left _ hx))
          (hnd.sublist ((List.sublist_append_left _ _).map _)) hcount
      · simp only [processPeerAcksFrom, scanSendCount, h] at hrun hcount ⊢
        exact ih c t n c1 hn (fun x hx => hlt x (hsub.subset hx))
          (hnd.sublist (hsub.map _)) hrun hcount
      · simp only [processPeerAcksFrom, scanSendCount, h] at hrun hcount ⊢
        exact ih c (e :: t) n c1 hn hlt hnd hrun hcount

theorem adjustMyAck_seqNum (c : UdpConnection) (s : Nat) :
    (adjustMyAck c s).m_seqNum = c.m_seqNum := by
  unfold adjustMyAck
  split
  · rfl
  · simp only
    split <;> rfl

theorem applyOp_distinct (fuel : Nat) (c c1 : UdpConnection) (n : Nat) (op : Op)
    (hn : c.m_seqNum = n)
    (hlt : ∀ e ∈ c.m_sent, e.1.header.seqNum < n)
    (hnd : (c.m_sent.map (fun e => e.1.header.seqNum)).Nodup)
    (hrun : applyOp fuel c op = some c1)
    (hcount : n + opSendCount fuel c op < 65536) :
    c1.m_seqNum = n + opSendCount fuel c op
      ∧ (∀ e ∈ c1.m_sent, e.1.header.seqNum < n + opSendCount fuel c op)
      ∧ (c1.m_sent.map (fun e => e.1.header.seqNum)).Nodup := by
  cases op with
  | send packet reliable =>
    simp only [applyOp, Option.some.injEq] at hrun
    subst hrun
    simp only [opSendCount] at hcount ⊢
    refine ⟨by simp only [send, hn]; omega, ?_, ?_⟩
    · intro x hx
      simp only [send, List.mem_cons] at hx
      rcases hx with rfl | hx
      · simp only [hn]; omega
      · have := hlt x hx
        omega
    · simp only [send, List.map_cons, List.nodup_cons, hn]
      refine ⟨?_, hnd⟩
      intro hmem
      obtain ⟨x, hx, hxn⟩ := List.mem_map.1 hmem
      have := hlt x hx
      omega
  | handleSend seqNum error =>
    simp only [applyOp, Option.some.injEq] at hrun
    subst hrun
    simp only [opSendCount, Nat.add_zero]
    cases error with
    | false => exact ⟨hn, hlt, hnd⟩
    | true =>
      refine ⟨hn, ?_, ?_⟩
      · intro x hx
        simp only [handleSend, if_true] at hx
        exact hlt x (List.mem_of_mem_filter hx)
      · simp only [handleSend, if_true]
        exact hnd.sublist ((List.filter_sublist _).map _)
  | handleReceive packet =>
    simp only [applyOp, handleReceive, processHeader, processPeerAcks] at hrun
    simp only [opSendCount] at hcount ⊢
    cases hscan : processPeerAcksFrom packet.header.ack packet.header.ackBits fuel
        { adjustMyAck c packet.header.seqNum with m_sent := [] }
        (adjustMyAck c packet.header.seqNum).m_sent with
    | none => rw [hscan] at hrun; cases hrun
    | some c2 =>
      rw [hscan] at hrun
      simp only [Option.some.injEq] at hrun
      subst hrun
      have h := processPeerAcksFrom_distinct packet.header.ack packet.header.ackBits fuel
        { adjustMyAck c packet.header.seqNum with m_sent := [] }
        (adjustMyAck c packet.header.seqNum).m_sent n c2
        (by simp only [adjustMyAck_seqNum, hn])
        (by simpa [adjustMyAck_sent] using hlt)
        (by simpa [adjustMyAck_sent] using hnd)
        hscan hcount
      exact h

theorem runOps_count_le (fuel : Nat) (ops : List Op) :
    ∀ (c : UdpConnection) (n : Nat) (c1 : UdpConnection) (n1 : Nat),
      runOps fuel (c, n) ops = some (c1, n1) → n ≤ n1 := by
  induction ops with
  | nil =>
    intro c n c1 n1 h
    simp only [runOps, Option.some.injEq, Prod.mk.injEq] at h
    omega
  | cons op ops ih =>
    intro c n c1 n1 h
    simp only [runOps] at h
    cases hop : applyOp fuel c op with
    | none => rw [hop] at h; cases h
    | some c2 =>
      rw [hop] at h
      have := ih c2 _ c1 n1 h
      omega

theorem runOps_distinct (fuel : Nat) (ops : List Op) :
    ∀ (c : UdpConnection) (n : Nat) (c1 : UdpConnection) (n1 : Nat),
      c.m_seqNum = n →
      (∀ e ∈ c.m_sent, e.1.header.seqNum < n) →
      (c.m_sent.map (fun e => e.1.header.seqNum)).Nodup →
      runOps fuel (c, n) ops = some (c1, n1) → n1 < 65536 →
      c1.m_seqNum = n1
        ∧ (∀ e ∈ c1.m_sent, e.1.header.seqNum < n1)
        ∧ (c1.m_sent.map (fun e => e.1.header.seqNum)).Nodup := by
  induction ops with
  | nil =>
    intro c n c1 n1 hn hlt hnd h _
    simp only [runOps, Option.some.injEq, Prod.mk.injEq] at h
    obtain ⟨rfl, rfl⟩ := h
    exact ⟨hn, hlt, hnd⟩
  | cons op ops ih =>
    intro c n c1 n1 hn hlt hnd h hn1
    simp only [runOps] at h
    cases hop : applyOp fuel c op with
    | none => rw [hop] at h; cases h
    | some c2 =>
      rw [hop] at h
      have hle := runOps_count_le fuel ops c2 _ c1 n1 h
      obtain ⟨h1, h2, h3⟩ := applyOp_distinct fuel c c2 n op hn hlt hnd hop (by omega)
      exact ih c2 _ c1 n1 h1 h2 h3 h hn1

/-! ## Sent ledger: distinct sequence numbers, tail sweep -/

/-- C15: starting from a fresh connection, after any run of `send`,
`handleReceive` and `handleSend` operations (each of which returned) in which
fewer than 65536 frames were sent in total, retransmissions included, the
entries of `m_sent` have pairwise distinct sequence numbers; moreover `m_seqNum`
is the number of frames sent and every sequence number in the ledger is below
it. -/
theorem runOps_sent_distinct (fuel : Nat) (ops : List Op) (c : UdpConnection) (n : Nat)
    (hrun : runOps fuel (UdpConnection.new, 0) ops = some (c, n))
    (hfew : n < 65536) :
    (c.m_sent.map (fun e => e.1.header.seqNum)).Nodup
      ∧ c.m_sent.Pairwise (fun x y => x.1.header.seqNum ≠ y.1.header.seqNum)
      ∧ c.m_seqNum = n
      ∧ (∀ e ∈ c.m_sent, e.1.header.seqNum < n) := by
  obtain ⟨h1, h2, h3⟩ := runOps_distinct fuel ops UdpConnection.new 0 c n rfl
    (by simp [UdpConnection.new]) (by simp [UdpConnection.new]) hrun hfew
  refine ⟨h3, ?_, h1, h2⟩
  simpa [List.Nodup, List.pairwise_map] using h3

/-- Witness for C15: three reliable sends, a failed completion for sequence
number 1, then a received frame that makes the sweep re-send the two remaining
frames: five frames sent, ledger sequence numbers 4 and 3. -/
theorem runOps_sent_distinct_witness :
    runOps 1 (UdpConnection.new, 0)
        [.send (mkEntry 0 true).1 true, .send (mkEntry 0 true).1 true,
         .send (mkEntry 0 true).1 true, .handleSend 1 true,
         .handleReceive { header := { protocol := 9, seqNum := 0, ack := 2, ackBits := 3 },
                          payload := [] }]
      = some
        ({ m_seqNum := 5, m_ack := 0, m_ackBits := 1,
           m_sent :=
             [({ header := { protocol := 7, seqNum := 4, ack := 0, ackBits := 1 },
                 payload := [0] }, true),
              ({ header := { protocol := 7, seqNum := 3, ack := 0, ackBits := 1 },
                 payload := [0] }, true)],
           m_received :=
             [{ header := { protocol := 9, seqNum := 0, ack := 2, ackBits := 3 },
                payload := [] }] }, 5)
      ∧ ([4, 3] : List Nat).Nodup :=
  ⟨by decide,
   (runOps_sent_distinct 1
      [.send (mkEntry 0 true).1 true, .send (mkEntry 0 true).1 true,
       .send (mkEntry 0 true).1 true, .handleSend 1 true,
       .handleReceive { header := { protocol := 9, seqNum := 0, ack := 2, ackBits := 3 },
                        payload := [] }]
      { m_seqNum := 5, m_ack := 0, m_ackBits := 1,
        m_sent :=
          [({ header := { protocol := 7, seqNum := 4, ack := 0, ackBits := 1 },
              payload := [0] }, true),
           ({ header := { protocol := 7, seqNum := 3, ack := 0, ackBits := 1 },
              payload := [0] }, true)],
        m_received :=
          [{ header := { protocol := 9, seqNum := 0, ack := 2, ackBits := 3 },
             payload := [] }] }
      5 (by decide) (by decide)).1⟩

/-- C20 (code defect): the tail sweep removes and re-sends entries that the same
age computation does not classify as expired.  Ledger holding sequence numbers
2, 1, 0 (most recent first, all reliable), `m_ack = 1`, received
`(peerAck, peerAckBits) = (2, 0b11)`: entry 2 has age `1 - 2 = 65535 ≥ 32` and
starts the sweep; entry 1, right behind it, has age 0 and entry 0 has age 1 with
its bit set, so the outer loop would erase both as acknowledged; the sweep
re-sends all three as sequence numbers 3, 4, 5. -/
theorem processPeerAcks_sweep_takes_acknowledged :
    List.Chain' (fun a b : SentEntry => more_recent a.1.header.seqNum b.1.header.seqNum = true)
        [mkEntry 2 true, mkEntry 1 true, mkEntry 0 true]
      ∧ more_recent 2 2 = false ∧ 32 ≤ sub16 1 2
      ∧ sub16 1 1 = 0 ∧ sub16 1 0 = 1
      ∧ processPeerAcksIter 2 3
          { m_seqNum := 3, m_ack := 1, m_ackBits := 0, m_sent := [], m_received := [] }
          (mkEntry 1 true) [mkEntry 0 true]
        = .continuing
          { m_seqNum := 3, m_ack := 1, m_ackBits := 0, m_sent := [], m_received := [] }
          [mkEntry 0 true]
      ∧ processPeerAcksIter 2 3
          { m_seqNum := 3, m_ack := 1, m_ackBits := 0, m_sent := [], m_received := [] }
          (mkEntry 0 true) []
        = .continuing
          { m_seqNum := 3, m_ack := 1, m_ackBits := 0, m_sent := [], m_received := [] }
          []
      ∧ processPeerAcks 1
          { m_seqNum := 3, m_ack := 1, m_ackBits := 0,
            m_sent := [mkEntry 2 true, mkEntry 1 true, mkEntry 0 true], m_received := [] }
          2 3
        = some
          { m_seqNum := 6, m_ack := 1, m_ackBits := 0,
            m_sent :=
              [({ header := { protocol := 7, seqNum := 5, ack := 1, ackBits := 0 },
                  payload := [0] }, true),
               ({ header := { protocol := 7, seqNum := 4, ack := 1, ackBits := 0 },
                  payload := [1] }, true),
               ({ header := { protocol := 7, seqNum := 3, ack := 1, ackBits := 0 },
                  payload := [2] }, true)],
            m_received := [] } := by
  refine ⟨?_, by decide, by decide, by decide, by decide, by decide, by decide, by decide⟩
  simp only [List.chain'_cons, List.chain'_singleton, and_true]
  decide

end core
